import Mathlib

/-!
Verification of the PCA core of the repository
"Analyse Factorielle Multivariée du Marché Boursier"
(src/python/pca_analysis.py, class `AnalyseACP`), as a shallow embedding.

Matrices are embedded as functions `Fin n → Fin N → α` (rows × columns) and
eigenvalue / ratio sequences as lists, over an arbitrary `LinearOrderedField`
(float arithmetic is modelled exactly; instances are taken at `ℚ` or `ℝ`).
The square root used by `loadings` is passed as an explicit function argument
(the code calls `np.sqrt`); theorems about loadings instantiate it with
`Real.sqrt`.
-/

namespace ACP

variable {α : Type} [LinearOrderedField α]

/-- Mean of column `j` of matrix `X` (`n` rows).  Embeds the column mean
`mean_` that `sklearn.decomposition.PCA` stores at fit time and subtracts in
`transform`, and the sample-mean part of the covariance in the module header
formula `Σ = (1/(n-1)) Xᵀ X` of pca_analysis.py. -/
def colMean {n N : ℕ} (X : Fin n → Fin N → α) (j : Fin N) : α :=
  (∑ i, X i j) / (n : α)

/-- Sample covariance of columns `j`, `j2` of `X`, with the `1/(n-1)`
normalisation used throughout pca_analysis.py (its header states
`Σ = (1/(n-1)) Xᵀ X`; sklearn uses the same `ddof = 1` convention for
`explained_variance_`). -/
def sampleCov {n N : ℕ} (X : Fin n → Fin N → α) (j j2 : Fin N) : α :=
  (∑ i, (X i j - colMean X j) * (X i j2 - colMean X j2)) / ((n : α) - 1)

/-- Sample variance of column `j` of `X`. -/
def sampleVar {n N : ℕ} (X : Fin n → Fin N → α) (j : Fin N) : α :=
  sampleCov X j j

/-- The input matrix is standardized: every column has mean 0 and unit sample
variance (spec §3, StandardizedMatrix invariant). -/
def Standardized {n N : ℕ} (X : Fin n → Fin N → α) : Prop :=
  ∀ j, colMean X j = 0 ∧ sampleVar X j = 1

/-- `components` holds an exact spectral decomposition of the sample
covariance of `X`: `Σ = Vᵀ Λ V` entrywise.  This is the defining property of
the full (`K = N`) eigendecomposition that `PCA.fit` computes in
`AnalyseACP.ajuster` (pca_analysis.py lines 69-75). -/
def SpectralDecomp {n N K : ℕ} (X : Fin n → Fin N → α)
    (components : Fin K → Fin N → α) (ev : Fin K → α) : Prop :=
  ∀ j j2, ∑ k, ev k * components k j * components k j2 = sampleCov X j j2

/-- Matrix transpose, embedding `self.pca.components_.T`
(pca_analysis.py line 119). -/
def transposeMat {N K : ℕ} (M : Fin K → Fin N → α) : Fin N → Fin K → α :=
  fun j k => M k j

/-- Numpy row-broadcast multiplication `M * v` of an `N × K` matrix by a
length-`K` vector: each row of `M` is multiplied elementwise by `v`
(pca_analysis.py line 119). -/
def rowBroadcastMul {N K : ℕ} (M : Fin N → Fin K → α) (v : Fin K → α) :
    Fin N → Fin K → α :=
  fun j k => M j k * v k

/-- `AnalyseACP.loadings` (pca_analysis.py lines 110-123):
`L = self.pca.components_.T * np.sqrt(self.pca.explained_variance_)`.
`sqrtFn` stands for `np.sqrt`. -/
def loadings {N K : ℕ} (sqrtFn : α → α) (components : Fin K → Fin N → α)
    (ev : Fin K → α) : Fin N → Fin K → α :=
  rowBroadcastMul (transposeMat components) (fun k => sqrtFn (ev k))

/-- `AnalyseACP.communalites` (pca_analysis.py lines 126-142):
`h2 = (L ** 2).sum(axis=1)`, the row sums of the squared loadings over all
fitted components. -/
def communalites {N K : ℕ} (sqrtFn : α → α) (components : Fin K → Fin N → α)
    (ev : Fin K → α) (j : Fin N) : α :=
  ∑ k, (loadings sqrtFn components ev j k) ^ 2

/-- `AnalyseACP.transformer` (pca_analysis.py lines 77-81):
`scores = self.pca.transform(X)`, i.e. `(X - mean_) @ components_.T` where
`mean_` is the column-mean vector stored at fit time. -/
def transformer {n N K : ℕ} (X : Fin n → Fin N → α) (meanFit : Fin N → α)
    (components : Fin K → Fin N → α) : Fin n → Fin K → α :=
  fun i k => ∑ j, (X i j - meanFit j) * components k j

/-- `np.cumsum` on a list: partial sums, kept in order
(pca_analysis.py line 153). -/
def cumsum : List α → List α
  | [] => []
  | x :: xs => x :: (cumsum xs).map (fun c => x + c)

/-- `np.argmax` on a boolean array: index of the first `true`, and `0` when
every entry is `false` (all entries equal the maximum `False`), as numpy
returns the first occurrence of the maximum (pca_analysis.py line 154). -/
def npArgmaxBool : List Bool → ℕ
  | [] => 0
  | true :: _ => 0
  | false :: t => if t.any (fun b => b) then npArgmaxBool t + 1 else 0

/-- `AnalyseACP.seuil_variance` (pca_analysis.py lines 151-156):
`cumul = np.cumsum(explained_variance_ratio_)`;
`n = int(np.argmax(cumul >= seuil)) + 1`. -/
def seuil_variance (ratios : List α) (seuil : α) : ℕ :=
  npArgmaxBool ((cumsum ratios).map (fun c => decide (seuil ≤ c))) + 1

/-- `AnalyseACP.critere_kaiser` (pca_analysis.py lines 145-149):
`n = int(np.sum(self.pca.explained_variance_ > 1))` — the elementwise
comparison yields booleans and `np.sum` counts the `True` entries. -/
def critere_kaiser (eigs : List α) : ℕ :=
  ((eigs.map (fun x => decide (1 < x))).count true)

/-- The spec's wording of the Kaiser rule (spec §4.4): the number of
eigenvalues strictly greater than 1.0. -/
def kaiserSpecCount (eigs : List α) : ℕ :=
  (eigs.filter (fun x => decide (1 < x))).length

/-- `pandas.Series.sort_values(ascending=False)` on one loadings column,
keyed by absolute value (pca_analysis.py line 164:
`tri = L[cp].abs().sort_values(ascending=False)`).  pandas performs an
ascending argsort and reverses it (`nargsort`: `indexer = indexer[::-1]`);
on small arrays numpy quicksort degenerates to a stable insertion sort, so
the model is: stable ascending sort by `|value|`, then reverse.  Each column
entry is paired with its variable name (the DataFrame index), which is how
line 167 `L.loc[top.index, cp]` recovers the signed loading. -/
def sortValuesDesc (col : List (String × α)) : List (String × α) :=
  (col.insertionSort (fun p q => |p.2| ≤ |q.2|)).reverse

/-- The per-column body of `AnalyseACP.interpreter` (pca_analysis.py lines
164-167): sort by descending absolute loading and keep the first `nTop`
(`top = tri.head(n_top)`), signed values preserved.  This is the spec's
`dominant_variables` operation. -/
def dominantVariables (col : List (String × α)) (nTop : ℕ) :
    List (String × α) :=
  (sortValuesDesc col).take nTop

/-- `AnalyseACP.interpreter` (pca_analysis.py lines 159-170): loops over
`enumerate(L.columns[:5])` — only the first five loadings columns — and for
each records the dominant variables together with
`explained_variance_ratio_[i] * 100`.  `L` is the list of loadings columns
(one inner list of (variable, loading) pairs per component) and `ratios` the
explained-variance ratios, positionally aligned. -/
def interpreter (L : List (List (String × α))) (ratios : List α)
    (nTop : ℕ) : List (List (String × α) × α) :=
  (List.zip (L.take 5) ratios).map
    (fun pr => (dominantVariables pr.1 nTop, pr.2 * 100))

/-- Largest absolute value occurring in a loading column (0 for the empty
column). -/
def maxAbs (v : List α) : α :=
  (v.map (fun x => |x|)).foldr max 0

/-- First entry of `v` whose absolute value attains `maxAbs v` (numpy's
argmax convention: first occurrence), 0 for the empty column. -/
def pivotLoading (v : List α) : α :=
  ((v.filter (fun x => decide (|x| = maxAbs v))).headD 0)

/-- Modelled from the spec: the sign convention of the eigen-decomposition
engine (spec §4.1) — "for each component, fix sign so that the loading of
largest absolute magnitude is positive".  In the repository this step happens
inside the external solver (`sklearn` `svd_flip`) called by
`AnalyseACP.ajuster`, not in src/.  The whole component (here: one loading
column) is negated when its largest-magnitude entry is negative. -/
def signFix (v : List α) : List α :=
  if pivotLoading v < 0 then v.map (fun x => -x) else v

/-- Error taxonomy of the spec (§7). -/
inductive ErreurACP
  | invalidInputError
  | notStandardizedError
  | dimensionMismatchError
  | unreachableThresholdError
  | indexOutOfRangeError
deriving DecidableEq

/-- The fitted model data (spec §3, Decomposition). -/
structure Decomposition (β : Type) where
  components : List (List β)
  eigenvalues : List β
  variableNames : List String

/-- Modelled from the spec: input validation of the fit operation
(spec §4.1, §7).  `AnalyseACP.ajuster` (pca_analysis.py lines 69-75)
delegates fitting to the external library without any validation code in
src/, so the checks are taken from the spec's words: fewer than 2 rows,
non-finite values (an entry is `Option.none` when not finite), or a
requested component count exceeding the achievable rank
`min(observations, variables)` fail with `InvalidInputError` before the
solver (`solveur`, the external eigendecomposition) is ever consulted. -/
def fit (solveur : List (List α) → Option ℕ → Decomposition α)
    (X : List (List (Option α))) (kRequested : Option ℕ) :
    Except ErreurACP (Decomposition α) :=
  if X.length < 2 then Except.error ErreurACP.invalidInputError
  else if X.any (fun row => row.any (fun e => e.isNone)) then
    Except.error ErreurACP.invalidInputError
  else
    match kRequested with
    | some k =>
        if min X.length (X.headD []).length < k then
          Except.error ErreurACP.invalidInputError
        else Except.ok (solveur (X.map (fun row => row.map (fun e => e.getD 0))) (some k))
    | none => Except.ok (solveur (X.map (fun row => row.map (fun e => e.getD 0))) none)

/-! Helper lemmas about the list-level embeddings. -/

lemma cumsum_length (l : List α) : (cumsum l).length = l.length := by
  induction l with
  | nil => rfl
  | cons x xs ih => simp [cumsum, ih]

lemma getD_map_of_lt {β γ : Type} (f : β → γ) (l : List β) (i : ℕ) (d : γ) (d2 : β)
    (h : i < l.length) : (l.map f).getD i d = f (l.getD i d2) := by
  induction l generalizing i with
  | nil => simp at h
  | cons x xs ih =>
    cases i with
    | zero => simp
    | succ m =>
      simp only [List.map_cons, List.getD_cons_succ]
      exact ih m (by simpa using Nat.lt_of_succ_lt_succ h)

lemma cumsum_getD (l : List α) (i : ℕ) (h : i < l.length) :
    (cumsum l).getD i 0 = (l.take (i + 1)).sum := by
  induction l generalizing i with
  | nil => simp at h
  | cons x xs ih =>
    cases i with
    | zero => simp [cumsum]
    | succ m =>
      have hm : m < xs.length := by simpa using Nat.lt_of_succ_lt_succ h
      have hm2 : m < (cumsum xs).length := by rw [cumsum_length]; exact hm
      simp only [cumsum, List.getD_cons_succ, List.take_succ_cons, List.sum_cons]
      rw [getD_map_of_lt (fun c => x + c) (cumsum xs) m 0 0 hm2, ih m hm]

lemma npArgmaxBool_spec (l : List Bool)
    (h : ∃ i, i < l.length ∧ l.getD i false = true) :
    npArgmaxBool l < l.length ∧ l.getD (npArgmaxBool l) false = true ∧
      ∀ m, m < npArgmaxBool l → l.getD m false = false := by
  induction l with
  | nil => obtain ⟨i, hi, _⟩ := h; simp at hi
  | cons b t ih =>
    obtain ⟨i, hi, hv⟩ := h
    cases b with
    | true =>
      refine ⟨by simp [npArgmaxBool], by simp [npArgmaxBool], ?_⟩
      intro m hm
      simp [npArgmaxBool] at hm
    | false =>
      cases i with
      | zero => simp at hv
      | succ i2 =>
        have hi2 : i2 < t.length := by simpa using Nat.lt_of_succ_lt_succ hi
        have hv2 : t.getD i2 false = true := by simpa using hv
        have hmem : t.getD i2 false ∈ t := by
          rw [List.getD_eq_getElem t false hi2]
          exact List.getElem_mem hi2
        have hany : t.any (fun b => b) = true := by
          rw [List.any_eq_true]
          exact ⟨true, by rwa [hv2] at hmem, rfl⟩
        have harg : npArgmaxBool (false :: t) = npArgmaxBool t + 1 := by
          simp [npArgmaxBool, hany]
        obtain ⟨g1, g2, g3⟩ := ih ⟨i2, hi2, hv2⟩
        refine ⟨?_, ?_, ?_⟩
        · rw [harg]; simpa using Nat.succ_lt_succ g1
        · rw [harg]; simpa using g2
        · intro m hm
          rw [harg] at hm
          cases m with
          | zero => simp
          | succ m2 => simpa using g3 m2 (Nat.lt_of_succ_lt_succ hm)

lemma npArgmaxBool_all_false (l : List Bool)
    (h : ∀ i, i < l.length → l.getD i false = false) :
    npArgmaxBool l = 0 := by
  cases l with
  | nil => rfl
  | cons b t =>
    cases b with
    | true => have := h 0 (by simp); simp at this
    | false =>
      have hany : t.any (fun b => b) = false := by
        rw [← Bool.not_eq_true, List.any_eq_true]
        rintro ⟨x, hx, px⟩
        obtain ⟨i, hlen, hval⟩ := List.mem_iff_getElem.mp hx
        have h2 := h (i + 1) (by simpa using Nat.succ_lt_succ hlen)
        simp only [List.getD_cons_succ] at h2
        rw [List.getD_eq_getElem t false hlen, hval] at h2
        simp only [h2] at px
        exact Bool.false_ne_true px
      simp [npArgmaxBool, hany]

lemma dominantVariables_props (col : List (String × α)) (nTop : ℕ)
    (h : nTop ≤ col.length) :
    (dominantVariables col nTop).length = nTop ∧
    List.Sorted (fun p q : String × α => |q.2| ≤ |p.2|) (dominantVariables col nTop) ∧
    (∀ p, p ∈ dominantVariables col nTop → p ∈ col) := by
  haveI : IsTotal (String × α) (fun p q => |p.2| ≤ |q.2|) :=
    ⟨fun p q => le_total _ _⟩
  haveI : IsTrans (String × α) (fun p q => |p.2| ≤ |q.2|) :=
    ⟨fun p q r hpq hqr => le_trans hpq hqr⟩
  have hperm := List.perm_insertionSort (fun p q : String × α => |p.2| ≤ |q.2|) col
  refine ⟨?_, ?_, ?_⟩
  · rw [dominantVariables, List.length_take, sortValuesDesc, List.length_reverse,
      hperm.length_eq]
    omega
  · have hs := List.sorted_insertionSort (fun p q : String × α => |p.2| ≤ |q.2|) col
    have hrev : List.Sorted (fun p q : String × α => |q.2| ≤ |p.2|)
        (sortValuesDesc col) := by
      rw [sortValuesDesc, List.Sorted]
      exact List.pairwise_reverse.mpr hs
    exact List.Pairwise.sublist (List.take_sublist _ _) hrev
  · intro p hp
    have h1 : p ∈ sortValuesDesc col := List.Sublist.mem hp (List.take_sublist _ _)
    rw [sortValuesDesc, List.mem_reverse] at h1
    exact hperm.mem_iff.mp h1

lemma zip_take_right {β γ : Type} (l : List β) (r : List γ) (k : ℕ)
    (h : l.length ≤ k) : List.zip l (r.take k) = List.zip l r := by
  induction l generalizing r k with
  | nil => simp [List.zip]
  | cons x xs ih =>
    cases r with
    | nil => simp
    | cons y ys =>
      cases k with
      | zero => simp at h
      | succ m =>
        simp only [List.take_succ_cons, List.zip_cons_cons]
        rw [ih ys m (by simpa using Nat.le_of_succ_le_succ h)]

lemma maxAbs_map_neg (v : List α) : maxAbs (v.map (fun x => -x)) = maxAbs v := by
  rw [maxAbs, maxAbs, List.map_map]
  congr 1
  exact List.map_congr_left (fun a _ => abs_neg a)

lemma filter_abs_map_neg (v : List α) (M : α) :
    (v.map (fun x => -x)).filter (fun x => decide (|x| = M)) =
    (v.filter (fun x => decide (|x| = M))).map (fun x => -x) := by
  rw [List.filter_map]
  congr 1
  apply List.filter_congr
  intro a _
  simp [abs_neg]

lemma headD_map_neg (l : List α) : (l.map (fun x => -x)).headD 0 = -(l.headD 0) := by
  cases l <;> simp

lemma pivotLoading_map_neg (v : List α) :
    pivotLoading (v.map (fun x => -x)) = -(pivotLoading v) := by
  rw [pivotLoading, pivotLoading, maxAbs_map_neg, filter_abs_map_neg, headD_map_neg]

lemma abs_pivotLoading (v : List α) (h : pivotLoading v ≠ 0) :
    |pivotLoading v| = maxAbs v := by
  rw [pivotLoading] at h ⊢
  rcases hf : v.filter (fun x => decide (|x| = maxAbs v)) with _ | ⟨x, t⟩
  · rw [hf] at h; simp at h
  · simp only [List.headD_cons]
    have hx : x ∈ v.filter (fun x => decide (|x| = maxAbs v)) := by
      rw [hf]; exact List.mem_cons_self x t
    have hmf := List.mem_filter.mp hx
    exact of_decide_eq_true hmf.2

lemma sum_centered {n N : ℕ} (hn : (n:α) ≠ 0) (X : Fin n → Fin N → α) (j : Fin N) :
    ∑ i, (X i j - colMean X j) = 0 := by
  rw [Finset.sum_sub_distrib, Finset.sum_const, Finset.card_univ, Fintype.card_fin,
    nsmul_eq_mul, colMean]
  field_simp

lemma colMean_transformer {n N K : ℕ} (hn : (n:α) ≠ 0) (X : Fin n → Fin N → α)
    (components : Fin K → Fin N → α) (k : Fin K) :
    colMean (transformer X (colMean X) components) k = 0 := by
  rw [colMean]
  have h1 : ∑ i, transformer X (colMean X) components i k = 0 := by
    have h2 : ∀ i, transformer X (colMean X) components i k
        = ∑ j, (X i j - colMean X j) * components k j := fun i => rfl
    rw [Finset.sum_congr rfl (fun i _ => h2 i), Finset.sum_comm]
    apply Finset.sum_eq_zero
    intro j _
    rw [← Finset.sum_mul, sum_centered hn X j, zero_mul]
  rw [h1, zero_div]

/-! Claim theorems. -/

/-- C1: for every fitted decomposition with N variables and K components, the
loadings operation returns an N-by-K matrix whose entry (j,k) equals
component_k[j] multiplied by sqrt(eigenvalue_k)
(pca_analysis.py line 119: `L = components_.T * np.sqrt(explained_variance_)`). -/
theorem loadings_entry_formula {N K : ℕ} (components : Fin K → Fin N → ℝ)
    (ev : Fin K → ℝ) (j : Fin N) (k : Fin K) :
    loadings Real.sqrt components ev j k = components k j * Real.sqrt (ev k) := rfl

/-- C3: for every ratio list and reachable threshold in (0,1), `seuil_variance`
returns the smallest component count K2 whose leading partial ratio sum
reaches the threshold (boundary inclusive); in particular for eigenvalues
[2.4, 0.4, 0.2] (total 3) it returns 1 at threshold 0.80 and 2 at 0.81. -/
theorem seuil_variance_correct (ratios : List ℚ) (seuil : ℚ)
    (hpos : 0 < seuil) (hlt1 : seuil < 1)
    (hreach : ∃ K2, 1 ≤ K2 ∧ K2 ≤ ratios.length ∧ seuil ≤ (ratios.take K2).sum) :
    (1 ≤ seuil_variance ratios seuil ∧
      seuil_variance ratios seuil ≤ ratios.length ∧
      seuil ≤ (ratios.take (seuil_variance ratios seuil)).sum ∧
      ∀ m, 1 ≤ m → m < seuil_variance ratios seuil → (ratios.take m).sum < seuil) ∧
    seuil_variance [(12:ℚ)/5/3, (2:ℚ)/5/3, (1:ℚ)/5/3] (80/100) = 1 ∧
    seuil_variance [(12:ℚ)/5/3, (2:ℚ)/5/3, (1:ℚ)/5/3] (81/100) = 2 := by
  refine ⟨?_, ?_, ?_⟩
  · obtain ⟨K2, hK1, hKlen, hKsum⟩ := hreach
    set bs := (cumsum ratios).map (fun c => decide (seuil ≤ c)) with hbs
    have hclen : (cumsum ratios).length = ratios.length := cumsum_length ratios
    have hblen : bs.length = ratios.length := by rw [hbs, List.length_map, hclen]
    have hKidx : K2 - 1 < ratios.length := by omega
    have hgb : bs.getD (K2 - 1) false = true := by
      rw [hbs, getD_map_of_lt _ _ _ _ 0 (by rw [hclen]; exact hKidx),
        cumsum_getD _ _ hKidx]
      have h1 : K2 - 1 + 1 = K2 := by omega
      rw [h1]
      exact decide_eq_true hKsum
    obtain ⟨g1, g2, g3⟩ := npArgmaxBool_spec bs
      ⟨K2 - 1, by rw [hblen]; exact hKidx, hgb⟩
    have hsv : seuil_variance ratios seuil = npArgmaxBool bs + 1 := rfl
    rw [hblen] at g1
    refine ⟨by omega, by omega, ?_, ?_⟩
    · rw [hsv]
      rw [hbs, getD_map_of_lt _ _ _ _ 0 (by rw [hclen]; exact g1),
        cumsum_getD _ _ g1] at g2
      exact of_decide_eq_true g2
    · intro m hm1 hm2
      rw [hsv] at hm2
      have hmlt : m - 1 < npArgmaxBool bs := by omega
      have hmlen : m - 1 < ratios.length := by omega
      have g4 := g3 (m - 1) hmlt
      rw [hbs, getD_map_of_lt _ _ _ _ 0 (by rw [hclen]; exact hmlen),
        cumsum_getD _ _ hmlen] at g4
      have h1 : m - 1 + 1 = m := by omega
      rw [h1] at g4
      exact lt_of_not_le (of_decide_eq_false g4)
  · norm_num [seuil_variance, cumsum, npArgmaxBool]
  · norm_num [seuil_variance, cumsum, npArgmaxBool]

/-- Witness for C3, at the claim's own boundary dataset and threshold 0.80. -/
theorem seuil_variance_correct_witness :
    (1 ≤ seuil_variance [(12:ℚ)/5/3, (2:ℚ)/5/3, (1:ℚ)/5/3] (80/100) ∧
      seuil_variance [(12:ℚ)/5/3, (2:ℚ)/5/3, (1:ℚ)/5/3] (80/100) ≤
        ([(12:ℚ)/5/3, (2:ℚ)/5/3, (1:ℚ)/5/3]).length ∧
      (80:ℚ)/100 ≤ (([(12:ℚ)/5/3, (2:ℚ)/5/3, (1:ℚ)/5/3]).take
        (seuil_variance [(12:ℚ)/5/3, (2:ℚ)/5/3, (1:ℚ)/5/3] (80/100))).sum ∧
      ∀ m, 1 ≤ m → m < seuil_variance [(12:ℚ)/5/3, (2:ℚ)/5/3, (1:ℚ)/5/3] (80/100) →
        (([(12:ℚ)/5/3, (2:ℚ)/5/3, (1:ℚ)/5/3]).take m).sum < 80/100) ∧
    seuil_variance [(12:ℚ)/5/3, (2:ℚ)/5/3, (1:ℚ)/5/3] (80/100) = 1 ∧
    seuil_variance [(12:ℚ)/5/3, (2:ℚ)/5/3, (1:ℚ)/5/3] (81/100) = 2 :=
  seuil_variance_correct [(12:ℚ)/5/3, (2:ℚ)/5/3, (1:ℚ)/5/3] (80/100)
    (by norm_num) (by norm_num)
    ⟨1, le_refl 1, by norm_num, by norm_num⟩

/-- C4 counterexample: with ratio list [4/5, 1/5] and threshold 3/2 the
threshold is unreachable (every achievable cumulative sum stays below it),
yet `seuil_variance` returns the component count 1 instead of failing:
`np.argmax` of an all-False array is 0, so the code returns 0 + 1. -/
theorem seuil_variance_unreachable_counterexample :
    (([(4:ℚ)/5, 1/5]).take 1).sum < 3/2 ∧
    (([(4:ℚ)/5, 1/5]).take 2).sum < 3/2 ∧
    seuil_variance [(4:ℚ)/5, 1/5] (3/2) = 1 := by
  refine ⟨by norm_num, by norm_num, ?_⟩
  norm_num [seuil_variance, cumsum, npArgmaxBool]

/-- C4 (amended): when even all K components together do not reach the
threshold, `seuil_variance` does not fail: it returns 1, because `np.argmax`
over the all-False comparison array yields index 0 (pca_analysis.py line 154). -/
theorem seuil_variance_unreachable (ratios : List ℚ) (seuil : ℚ)
    (hun : ∀ K2, 1 ≤ K2 → K2 ≤ ratios.length → (ratios.take K2).sum < seuil) :
    seuil_variance ratios seuil = 1 := by
  have hclen : (cumsum ratios).length = ratios.length := cumsum_length ratios
  have hall : ∀ i, i < ((cumsum ratios).map (fun c => decide (seuil ≤ c))).length →
      ((cumsum ratios).map (fun c => decide (seuil ≤ c))).getD i false = false := by
    intro i hi
    rw [List.length_map, hclen] at hi
    rw [getD_map_of_lt _ _ _ _ 0 (by rw [hclen]; exact hi), cumsum_getD _ _ hi]
    exact decide_eq_false (not_le.mpr (hun (i + 1) (by omega) (by omega)))
  unfold seuil_variance
  rw [npArgmaxBool_all_false _ hall]

/-- Witness for the amended C4, at the counterexample's input. -/
theorem seuil_variance_unreachable_witness :
    seuil_variance [(4:ℚ)/5, 1/5] (3/2) = 1 :=
  seuil_variance_unreachable [(4:ℚ)/5, 1/5] (3/2) (by
    intro K2 h1 h2
    norm_num at h2
    interval_cases K2 <;> norm_num)

/-- C5: the Kaiser rule (`np.sum(explained_variance_ > 1)`,
pca_analysis.py line 147) returns exactly the count of eigenvalues strictly
greater than 1.0, and an eigenvalue equal to 1.0 is never counted — inserting
a 1.0 anywhere leaves the count unchanged. -/
theorem critere_kaiser_correct :
    (∀ (eigs : List ℚ), critere_kaiser eigs = kaiserSpecCount eigs) ∧
    (∀ (l1 l2 : List ℚ), critere_kaiser (l1 ++ (1:ℚ) :: l2) = critere_kaiser (l1 ++ l2)) := by
  constructor
  · intro eigs
    induction eigs with
    | nil => rfl
    | cons x xs ih =>
      by_cases hx : (1:ℚ) < x
      · simp [critere_kaiser, kaiserSpecCount, List.count_cons, List.filter_cons, hx] at *
        omega
      · simp [critere_kaiser, kaiserSpecCount, List.count_cons, List.filter_cons, hx] at *
        exact ih
  · intro l1 l2
    induction l1 with
    | nil => simp [critere_kaiser, List.count_cons]
    | cons x l1 ih =>
      simp only [List.cons_append, critere_kaiser, List.map_cons, List.count_cons] at *
      omega

/-- C2: for a decomposition of a standardized matrix holding an exact (all
components retained) spectral decomposition of its sample covariance, the
communality of every variable — the sum of its squared loadings over all
components — equals 1 exactly (the code computes it as `(L**2).sum(axis=1)`,
pca_analysis.py line 136). -/
theorem communalites_all_components {n N K : ℕ} (X : Fin n → Fin N → ℝ)
    (components : Fin K → Fin N → ℝ) (ev : Fin K → ℝ)
    (hstd : Standardized X) (hspec : SpectralDecomp X components ev)
    (hev : ∀ k, 0 ≤ ev k) :
    ∀ j, communalites Real.sqrt components ev j = 1 := by
  intro j
  have h1 : ∀ k : Fin K, (loadings Real.sqrt components ev j k) ^ 2
      = ev k * components k j * components k j := by
    intro k
    have h2 : loadings Real.sqrt components ev j k
        = components k j * Real.sqrt (ev k) := rfl
    rw [h2, mul_pow, Real.sq_sqrt (hev k)]
    ring
  rw [communalites, Finset.sum_congr rfl (fun k _ => h1 k), hspec j j]
  exact (hstd j).2

/-- Witness for C2: the 2-observation standardized matrix with column
(√(1/2), -√(1/2)), whose covariance is 1 with eigenvector (1) and
eigenvalue 1. -/
theorem communalites_all_components_witness :
    communalites Real.sqrt (![![(1:ℝ)]] : Fin 1 → Fin 1 → ℝ) ![(1:ℝ)] 0 = 1 := by
  have hm : colMean (![![Real.sqrt (1/2)], ![-Real.sqrt (1/2)]] : Fin 2 → Fin 1 → ℝ) 0 = 0 := by
    rw [colMean]
    simp [Fin.sum_univ_two]
  have hs : Real.sqrt (1/2) * Real.sqrt (1/2) = 1/2 :=
    Real.mul_self_sqrt (by norm_num)
  have hcov : sampleCov (![![Real.sqrt (1/2)], ![-Real.sqrt (1/2)]] : Fin 2 → Fin 1 → ℝ) 0 0 = 1 := by
    rw [sampleCov, hm]
    simp only [Fin.sum_univ_two, Matrix.cons_val_zero, Matrix.cons_val_one,
      Matrix.head_cons, sub_zero, neg_mul_neg]
    rw [hs]
    norm_num
  refine communalites_all_components
    (![![Real.sqrt (1/2)], ![-Real.sqrt (1/2)]] : Fin 2 → Fin 1 → ℝ)
    (![![(1:ℝ)]]) (![(1:ℝ)]) ?_ ?_ ?_ 0
  · intro j
    have hj : j = 0 := Subsingleton.elim j 0
    subst hj
    exact ⟨hm, hcov⟩
  · intro j j2
    have hj : j = 0 := Subsingleton.elim j 0
    have hj2 : j2 = 0 := Subsingleton.elim j2 0
    subst hj
    subst hj2
    rw [hcov]
    simp [Fin.sum_univ_one]
  · intro k
    have hk : k = 0 := Subsingleton.elim k 0
    subst hk
    norm_num

/-- C6: projecting the fitting matrix itself (`transform` subtracts the
stored fit-time column means, then multiplies by the components) yields
scores whose per-column sample variance equals the matching eigenvalue,
given the decomposition's eigen-equation and unit-norm components. -/
theorem transformer_score_variance {n N K : ℕ} (X : Fin n → Fin N → ℝ)
    (components : Fin K → Fin N → ℝ) (ev : Fin K → ℝ) (hn : 2 ≤ n)
    (hstd : Standardized X)
    (heig : ∀ k j, ∑ j2, sampleCov X j j2 * components k j2 = ev k * components k j)
    (hnorm : ∀ k, ∑ j, components k j ^ 2 = 1) :
    ∀ k, sampleVar (transformer X (colMean X) components) k = ev k := by
  intro k
  have hn0 : (n:ℝ) ≠ 0 := by
    have : (0:ℝ) < (n:ℝ) := by exact_mod_cast Nat.lt_of_lt_of_le (by norm_num) hn
    exact ne_of_gt this
  have hmean := colMean_transformer hn0 X components k
  rw [sampleVar, sampleCov, hmean]
  simp only [sub_zero]
  have hexp : ∀ i, transformer X (colMean X) components i k *
      transformer X (colMean X) components i k
      = ∑ j, ∑ j2, (components k j * components k j2) *
          ((X i j - colMean X j) * (X i j2 - colMean X j2)) := by
    intro i
    have h2 : transformer X (colMean X) components i k
        = ∑ j, (X i j - colMean X j) * components k j := rfl
    rw [h2, Finset.sum_mul_sum]
    apply Finset.sum_congr rfl
    intro j _
    apply Finset.sum_congr rfl
    intro j2 _
    ring
  rw [Finset.sum_congr rfl (fun i _ => hexp i), Finset.sum_comm]
  have hswap : ∀ j : Fin N, (∑ i, ∑ j2, (components k j * components k j2) *
      ((X i j - colMean X j) * (X i j2 - colMean X j2)))
      = ∑ j2, (components k j * components k j2) *
          ∑ i, ((X i j - colMean X j) * (X i j2 - colMean X j2)) := by
    intro j
    rw [Finset.sum_comm]
    apply Finset.sum_congr rfl
    intro j2 _
    rw [Finset.mul_sum]
  rw [Finset.sum_congr rfl (fun j _ => hswap j), Finset.sum_div]
  have hdiv : ∀ j : Fin N, (∑ j2, (components k j * components k j2) *
      ∑ i, ((X i j - colMean X j) * (X i j2 - colMean X j2))) / ((n:ℝ) - 1)
      = components k j * ∑ j2, sampleCov X j j2 * components k j2 := by
    intro j
    rw [Finset.sum_div, Finset.mul_sum]
    apply Finset.sum_congr rfl
    intro j2 _
    simp only [sampleCov]
    ring
  rw [Finset.sum_congr rfl (fun j _ => hdiv j)]
  have hfin : ∀ j : Fin N, components k j * ∑ j2, sampleCov X j j2 * components k j2
      = ev k * components k j ^ 2 := by
    intro j
    rw [heig k j]
    ring
  rw [Finset.sum_congr rfl (fun j _ => hfin j), ← Finset.mul_sum, hnorm k, mul_one]

/-- Witness for C6, on the standardized one-column matrix (√(1/2), -√(1/2))
with eigenvalue 1. -/
theorem transformer_score_variance_witness :
    sampleVar (transformer (![![Real.sqrt (1/2)], ![-Real.sqrt (1/2)]] : Fin 2 → Fin 1 → ℝ)
      (colMean (![![Real.sqrt (1/2)], ![-Real.sqrt (1/2)]] : Fin 2 → Fin 1 → ℝ))
      (![![(1:ℝ)]])) 0 = 1 := by
  have hm : colMean (![![Real.sqrt (1/2)], ![-Real.sqrt (1/2)]] : Fin 2 → Fin 1 → ℝ) 0 = 0 := by
    rw [colMean]
    simp [Fin.sum_univ_two]
  have hs : Real.sqrt (1/2) * Real.sqrt (1/2) = 1/2 :=
    Real.mul_self_sqrt (by norm_num)
  have hcov : sampleCov (![![Real.sqrt (1/2)], ![-Real.sqrt (1/2)]] : Fin 2 → Fin 1 → ℝ) 0 0 = 1 := by
    rw [sampleCov, hm]
    simp only [Fin.sum_univ_two, Matrix.cons_val_zero, Matrix.cons_val_one,
      Matrix.head_cons, sub_zero, neg_mul_neg]
    rw [hs]
    norm_num
  refine transformer_score_variance
    (![![Real.sqrt (1/2)], ![-Real.sqrt (1/2)]] : Fin 2 → Fin 1 → ℝ)
    (![![(1:ℝ)]]) (![(1:ℝ)]) (by norm_num) ?_ ?_ ?_ 0
  · intro j
    have hj : j = 0 := Subsingleton.elim j 0
    subst hj
    exact ⟨hm, hcov⟩
  · intro k j
    have hj : j = 0 := Subsingleton.elim j 0
    have hk : k = 0 := Subsingleton.elim k 0
    subst hj
    subst hk
    simp only [Fin.sum_univ_one]
    rw [hcov]
    simp
  · intro k
    have hk : k = 0 := Subsingleton.elim k 0
    subst hk
    simp [Fin.sum_univ_one]

/-- C7 counterexample: on the tied column [(A, 1/2), (B, 1/2)] the claim's
first-declared-wins tie-break predicts [(A, 1/2), (B, 1/2)], but the code —
pandas `sort_values(ascending=False)`, an ascending argsort followed by a
reversal — returns [(B, 1/2), (A, 1/2)]: the later variable wins the tie. -/
theorem dominantVariables_tie_counterexample :
    dominantVariables [("A", (1:ℝ)/2), ("B", 1/2)] 2 = [("B", (1:ℝ)/2), ("A", 1/2)] ∧
    dominantVariables [("A", (1:ℝ)/2), ("B", 1/2)] 2 ≠ [("A", (1:ℝ)/2), ("B", 1/2)] := by
  constructor
  · norm_num [dominantVariables, sortValuesDesc, List.insertionSort, List.orderedInsert,
      abs_of_nonneg, abs_of_nonpos]
  · norm_num [dominantVariables, sortValuesDesc, List.insertionSort, List.orderedInsert,
      abs_of_nonneg, abs_of_nonpos]
    decide

/-- C7 (amended): for `top_n ≤ N`, `dominant_variables` returns `top_n`
pairs drawn from the column, sorted by descending absolute loading with the
signed loading preserved; ties are broken by REVERSE original variable order
(last-declared wins), since the descending sort reverses a stable ascending
sort.  On the claim's own example column [0.8, -0.9, 0.1] over [A,B,C] with
top_n = 2 it returns [(B, -0.9), (A, 0.8)] as stated. -/
theorem dominantVariables_correct (col : List (String × ℝ)) (nTop : ℕ)
    (h : nTop ≤ col.length) :
    ((dominantVariables col nTop).length = nTop ∧
      List.Sorted (fun p q : String × ℝ => |q.2| ≤ |p.2|) (dominantVariables col nTop) ∧
      (∀ p, p ∈ dominantVariables col nTop → p ∈ col)) ∧
    dominantVariables [("A", (8:ℝ)/10), ("B", -(9:ℝ)/10), ("C", 1/10)] 2
      = [("B", -(9:ℝ)/10), ("A", 8/10)] ∧
    dominantVariables [("A", (1:ℝ)/2), ("B", 1/2)] 2
      = [("B", (1:ℝ)/2), ("A", 1/2)] := by
  refine ⟨dominantVariables_props col nTop h, ?_, ?_⟩
  · norm_num [dominantVariables, sortValuesDesc, List.insertionSort, List.orderedInsert,
      abs_of_nonneg, abs_of_nonpos]
  · norm_num [dominantVariables, sortValuesDesc, List.insertionSort, List.orderedInsert,
      abs_of_nonneg, abs_of_nonpos]

/-- Witness for the amended C7, at the claim's example column with
top_n = 2. -/
theorem dominantVariables_correct_witness :
    ((dominantVariables [("A", (8:ℝ)/10), ("B", -(9:ℝ)/10), ("C", 1/10)] 2).length = 2 ∧
      List.Sorted (fun p q : String × ℝ => |q.2| ≤ |p.2|)
        (dominantVariables [("A", (8:ℝ)/10), ("B", -(9:ℝ)/10), ("C", 1/10)] 2) ∧
      (∀ p, p ∈ dominantVariables [("A", (8:ℝ)/10), ("B", -(9:ℝ)/10), ("C", 1/10)] 2 →
        p ∈ [("A", (8:ℝ)/10), ("B", -(9:ℝ)/10), ("C", 1/10)])) ∧
    dominantVariables [("A", (8:ℝ)/10), ("B", -(9:ℝ)/10), ("C", 1/10)] 2
      = [("B", -(9:ℝ)/10), ("A", 8/10)] ∧
    dominantVariables [("A", (1:ℝ)/2), ("B", 1/2)] 2
      = [("B", (1:ℝ)/2), ("A", 1/2)] :=
  dominantVariables_correct [("A", (8:ℝ)/10), ("B", -(9:ℝ)/10), ("C", 1/10)] 2
    (by norm_num)

/-- C8: after the sign-fixing convention, the loading of largest absolute
magnitude of the (non-degenerate) column is strictly positive, and the
convention cancels the solver's arbitrary ± choice: sign-fixing the negated
column gives the same result as sign-fixing the column, so refitting the same
matrix always yields the same signed components. -/
theorem signFix_convention (v : List ℝ) (h : pivotLoading v ≠ 0) :
    0 < pivotLoading (signFix v) ∧
    |pivotLoading (signFix v)| = maxAbs v ∧
    signFix (v.map (fun x => -x)) = signFix v := by
  rcases lt_trichotomy (pivotLoading v) 0 with hneg | hzero | hpos
  · have h1 : signFix v = v.map (fun x => -x) := by rw [signFix, if_pos hneg]
    have h2 : pivotLoading (signFix v) = -(pivotLoading v) := by
      rw [h1, pivotLoading_map_neg]
    refine ⟨by rw [h2]; exact neg_pos.mpr hneg, ?_, ?_⟩
    · rw [h2, abs_neg, abs_pivotLoading v h]
    · rw [signFix, pivotLoading_map_neg,
        if_neg (by rw [not_lt]; exact le_of_lt (neg_pos.mpr hneg)), h1]
  · exact absurd hzero h
  · have h1 : signFix v = v := by
      rw [signFix, if_neg (by rw [not_lt]; exact le_of_lt hpos)]
    refine ⟨by rw [h1]; exact hpos, by rw [h1]; exact abs_pivotLoading v h, ?_⟩
    · rw [signFix, pivotLoading_map_neg, if_pos (neg_neg_iff_pos.mpr hpos),
        List.map_map, h1]
      have hc : ((fun x : ℝ => -x) ∘ fun x => -x) = id := by
        funext a
        simp
      rw [hc, List.map_id]

/-- Witness for C8, on the loading column [3, -5] whose largest-magnitude
entry is negative. -/
theorem signFix_convention_witness :
    0 < pivotLoading (signFix [(3:ℝ), -5]) ∧
    |pivotLoading (signFix [(3:ℝ), -5])| = maxAbs [(3:ℝ), -5] ∧
    signFix ([(3:ℝ), -5].map (fun x => -x)) = signFix [(3:ℝ), -5] :=
  signFix_convention [(3:ℝ), -5] (by
    norm_num [pivotLoading, maxAbs, List.filter, abs_of_nonneg, abs_of_nonpos])

/-- C9: a matrix with fewer than 2 rows, or containing a non-finite value,
or with a requested component count above the achievable rank
min(observations, variables), makes the fit operation fail with
`InvalidInputError`; no Decomposition is produced (the solver is never
applied). -/
theorem fit_invalid_input (solveur : List (List ℚ) → Option ℕ → Decomposition ℚ)
    (X : List (List (Option ℚ))) (kReq : Option ℕ)
    (hbad : X.length < 2 ∨ (∃ row ∈ X, ∃ e ∈ row, e = Option.none) ∨
      (∃ k2, kReq = some k2 ∧ min X.length (X.headD []).length < k2)) :
    fit solveur X kReq = Except.error ErreurACP.invalidInputError := by
  rcases hbad with h1 | h2 | h3
  · rw [fit.eq_def, if_pos h1]
  · by_cases h1 : X.length < 2
    · rw [fit.eq_def, if_pos h1]
    · have hany : X.any (fun row => row.any (fun e => e.isNone)) = true := by
        rw [List.any_eq_true]
        obtain ⟨row, hrow, e, he, hnone⟩ := h2
        refine ⟨row, hrow, ?_⟩
        rw [List.any_eq_true]
        exact ⟨e, he, by rw [hnone]; rfl⟩
      rw [fit.eq_def, if_neg h1, if_pos hany]
  · by_cases h1 : X.length < 2
    · rw [fit.eq_def, if_pos h1]
    · by_cases h2 : X.any (fun row => row.any (fun e => e.isNone)) = true
      · rw [fit.eq_def, if_neg h1, if_pos h2]
      · obtain ⟨k2, hk, hrank⟩ := h3
        rw [fit.eq_def, if_neg h1, if_neg h2, hk]
        simp only []
        rw [if_pos hrank]

/-- Witness for C9: a single-row matrix is rejected. -/
theorem fit_invalid_input_witness :
    fit (fun _ _ => (⟨[], [], []⟩ : Decomposition ℚ)) [[Option.some (1:ℚ)]] Option.none
      = Except.error ErreurACP.invalidInputError :=
  fit_invalid_input _ _ _ (Or.inl (by norm_num))

/-- C10: `interpreter` reports entries for exactly the first min(K, 5)
components — its output length is min 5 K, and its value only depends on the
first five loadings columns and ratios, whatever `n_top` is. -/
theorem interpreter_first_five (L : List (List (String × ℝ))) (ratios : List ℝ)
    (nTop : ℕ) (hlen : ratios.length = L.length) :
    (interpreter L ratios nTop).length = min 5 L.length ∧
    interpreter L ratios nTop = interpreter (L.take 5) (ratios.take 5) nTop := by
  constructor
  · rw [interpreter, List.length_map, List.length_zip, List.length_take, hlen]
    omega
  · rw [interpreter, interpreter, List.take_take]
    have h5 : min 5 5 = 5 := rfl
    rw [h5]
    rw [zip_take_right (L.take 5) ratios 5 (by rw [List.length_take]; omega)]

/-- Witness for C10: six single-entry components yield exactly five reported
entries. -/
theorem interpreter_first_five_witness :
    (interpreter [[("A",(1:ℝ))],[("B",1)],[("C",1)],[("D",1)],[("E",1)],[("F",1)]]
      [(1:ℝ)/6, 1/6, 1/6, 1/6, 1/6, 1/6] 2).length
        = min 5 ([[("A",(1:ℝ))],[("B",1)],[("C",1)],[("D",1)],[("E",1)],[("F",1)]]).length ∧
    interpreter [[("A",(1:ℝ))],[("B",1)],[("C",1)],[("D",1)],[("E",1)],[("F",1)]]
      [(1:ℝ)/6, 1/6, 1/6, 1/6, 1/6, 1/6] 2
      = interpreter (([[("A",(1:ℝ))],[("B",1)],[("C",1)],[("D",1)],[("E",1)],[("F",1)]]).take 5)
          (([(1:ℝ)/6, 1/6, 1/6, 1/6, 1/6, 1/6]).take 5) 2 :=
  interpreter_first_five [[("A",(1:ℝ))],[("B",1)],[("C",1)],[("D",1)],[("E",1)],[("F",1)]]
    [(1:ℝ)/6, 1/6, 1/6, 1/6, 1/6, 1/6] 2 rfl

end ACP
